import Mathlib

/-!
Shallow embedding of the string and buffer layer of the `imgui-rs` binding
(`src/imgui/src/string.rs` and `src/imgui/src/internal.rs`).

Modelling conventions:
* A heap byte buffer (`Vec<u8>`) is a `List UInt8`; the list holds exactly the
  logical contents of the vector (`len` bytes).
* A raw pointer into a buffer is the byte offset from the buffer's base
  pointer; the null pointer for optional arguments is `Option.none`.
* The C `int` fields of `ImVector` are `Int` values produced by the exact
  32-bit wrapping cast the Rust code performs (`as i32`), and `as usize` is
  the 64-bit sign-extending cast.
-/

/-- Bytes of the C string found at the start of buffer `b`:
`CStr::from_ptr(b.as_ptr()).to_bytes_with_nul()`, i.e. every byte up to and
including the first nul. The real code requires a nul byte to be present in
the allocation (otherwise the scan reads out of bounds); when `b` has no nul
the model returns `b` itself (`List.findIdx` returns `b.length`). -/
def cstrFromPtr (b : List UInt8) : List UInt8 :=
  b.take (b.findIdx (fun x => x == 0) + 1)

/-- Struct `UiBuffer` (string.rs:13): a scratch byte arena `buffer` plus the
maximum retained length `max_len`. -/
structure UiBuffer where
  buffer : List UInt8
  maxLen : Nat
deriving Repr, DecidableEq

/-- Method `UiBuffer::refresh_buffer` (string.rs:81): clear the buffer when its
length exceeds `max_len`, otherwise leave it untouched. -/
def UiBuffer.refreshBuffer (ub : UiBuffer) : UiBuffer :=
  if ub.buffer.length > ub.maxLen then { ub with buffer := [] } else ub

/-- Method `UiBuffer::push` (string.rs:105): record the current length, extend the
buffer with the text's bytes, push one nul, and return the recorded start
index together with the new state. -/
def UiBuffer.push (ub : UiBuffer) (txt : List UInt8) : Nat × UiBuffer :=
  (ub.buffer.length, { ub with buffer := (ub.buffer ++ txt) ++ [0] })

/-- Method `UiBuffer::offset` (string.rs:98): `buffer.as_ptr().add(pos)`; with
pointers modelled as offsets from the base this is `pos` itself. Its safety
precondition is `pos < buffer.len()`. -/
def UiBuffer.offset (_ub : UiBuffer) (pos : Nat) : Nat := pos

/-- Method `UiBuffer::scratch_txt` (string.rs:38): refresh, push, and return the
pointer to the pushed region (plus the new state). -/
def UiBuffer.scratchTxt (ub : UiBuffer) (txt : List UInt8) : Nat × UiBuffer :=
  let ub1 := ub.refreshBuffer
  let r := ub1.push txt
  (r.2.offset r.1, r.2)

/-- Method `UiBuffer::scratch_txt_opt` (string.rs:46): `none` maps to the null
pointer and the buffer is untouched. -/
def UiBuffer.scratchTxtOpt (ub : UiBuffer) (txt : Option (List UInt8)) :
    Option Nat × UiBuffer :=
  match txt with
  | some v => let r := ub.scratchTxt v; (some r.1, r.2)
  | none => (none, ub)

/-- Method `UiBuffer::scratch_txt_two` (string.rs:54): one refresh, two pushes, two
pointers. -/
def UiBuffer.scratchTxtTwo (ub : UiBuffer) (txt0 txt1 : List UInt8) :
    (Nat × Nat) × UiBuffer :=
  let ub1 := ub.refreshBuffer
  let r0 := ub1.push txt0
  let r1 := r0.2.push txt1
  ((r1.2.offset r0.1, r1.2.offset r1.1), r1.2)

/-- Method `UiBuffer::scratch_txt_with_opt` (string.rs:68). -/
def UiBuffer.scratchTxtWithOpt (ub : UiBuffer) (txt0 : List UInt8)
    (txt1 : Option (List UInt8)) : (Nat × Option Nat) × UiBuffer :=
  match txt1 with
  | some value =>
    let r := ub.scratchTxtTwo txt0 value
    ((r.1.1, some r.1.2), r.2)
  | none =>
    let r := ub.scratchTxt txt0
    ((r.1, none), r.2)

/-- Type `ImString` (string.rs:153): the owned `Vec<u8>`, trailing nul included. -/
abbrev ImString := List UInt8

/-- Constructor `ImString::from_utf8_unchecked` (string.rs:180): push a nul byte onto the
input vector. -/
def ImString.fromUtf8Unchecked (v : List UInt8) : ImString := v ++ [0]

/-- Method `ImString::refresh_len` (string.rs:271): `set_len` to the length of the
C-string scan of the buffer, i.e. keep every byte up to and including the
first nul. -/
def ImString.refreshLen (s : ImString) : ImString := cstrFromPtr s

/-- Constructor `ImString::new` (string.rs:157): `from_utf8_unchecked` on the input's
bytes followed by `refresh_len`. -/
def ImString.new (v : List UInt8) : ImString :=
  ImString.refreshLen (ImString.fromUtf8Unchecked v)

/-- Impl `Deref for ImString` (string.rs:364): the borrowed `ImStr` view is the
C-string scan of the owned buffer (it deliberately re-scans rather than
trusting the vector length). -/
def ImString.derefBytes (s : ImString) : List UInt8 := cstrFromPtr s

/-- Method `ImStr::to_str` (string.rs:459): the byte slice `self.0[..len - 1]`,
i.e. everything except the final nul. -/
def ImStr.toStr (b : List UInt8) : List UInt8 := b.take (b.length - 1)

/-- Method `ImStr::is_empty` (string.rs:466): the slice (nul included) has
length 1. -/
def ImStr.isEmpty (b : List UInt8) : Bool := b.length == 1

/-- Method `ImString::to_str` via `Deref`: deref to the `ImStr` view, then
`to_str`. -/
def ImString.toStr (s : ImString) : List UInt8 :=
  ImStr.toStr (ImString.derefBytes s)

/-- Method `ImString::is_empty` via `Deref`. -/
def ImString.isEmpty (s : ImString) : Bool :=
  ImStr.isEmpty (ImString.derefBytes s)

/-- Method `ImString::push_str` (string.rs:212): pop the old terminator, extend with
the string's bytes, push a new terminator, then `refresh_len`. -/
def ImString.pushStr (s : ImString) (t : List UInt8) : ImString :=
  ImString.refreshLen ((s.dropLast ++ t) ++ [0])

/-- UTF-8 encoding of one scalar value: `char::encode_utf8`. -/
def encodeUtf8 (c : Char) : List UInt8 :=
  let n := c.toNat
  if n < 0x80 then
    [UInt8.ofNat n]
  else if n < 0x800 then
    [UInt8.ofNat (0xC0 ||| (n >>> 6)), UInt8.ofNat (0x80 ||| (n &&& 0x3F))]
  else if n < 0x10000 then
    [UInt8.ofNat (0xE0 ||| (n >>> 12)), UInt8.ofNat (0x80 ||| ((n >>> 6) &&& 0x3F)),
      UInt8.ofNat (0x80 ||| (n &&& 0x3F))]
  else
    [UInt8.ofNat (0xF0 ||| (n >>> 18)), UInt8.ofNat (0x80 ||| ((n >>> 12) &&& 0x3F)),
      UInt8.ofNat (0x80 ||| ((n >>> 6) &&& 0x3F)), UInt8.ofNat (0x80 ||| (n &&& 0x3F))]

/-- Method `ImString::push` (string.rs:205): encode the character to UTF-8 and
`push_str` the resulting bytes. -/
def ImString.push (s : ImString) (c : Char) : ImString :=
  ImString.pushStr s (encodeUtf8 c)

/-- Representation invariant of `ImString` (spec §3): the stored bytes end in
a single nul byte and no nul occurs before it. -/
def nulTerminated (b : List UInt8) : Prop :=
  b.getLast? = some 0 ∧ ∀ x ∈ b.dropLast, x ≠ 0

instance (b : List UInt8) : Decidable (nulTerminated b) := by
  unfold nulTerminated; infer_instance

/-- One append operation on an `ImString` (for invariant preservation over
arbitrary call sequences). -/
inductive StrOp where
  | pushCh (c : Char)
  | pushBytes (t : List UInt8)

/-- Run one `StrOp` against an `ImString`. -/
def applyOp (s : ImString) : StrOp → ImString
  | .pushCh c => ImString.push s c
  | .pushBytes t => ImString.pushStr s t

/-- Run a sequence of `StrOp`s left to right. -/
def applyOps (s : ImString) (ops : List StrOp) : ImString :=
  ops.foldl applyOp s

/-- The Rust cast `usize as i32`: keep the low 32 bits, two's complement. -/
def asI32 (n : Nat) : Int :=
  if (n : Int) % (2 ^ 32) < 2 ^ 31 then (n : Int) % (2 ^ 32)
  else (n : Int) % (2 ^ 32) - 2 ^ 32

/-- The Rust cast `i32 as usize` on a 64-bit target: sign-extend to 64 bits
and reinterpret as unsigned. -/
def i32AsUsize (i : Int) : Nat := (i % (2 ^ 64)).toNat

/-- Struct `ImVector<T>` (internal.rs:11): C-layout descriptor with `c_int` size and
capacity; `data` models the contents of the allocation behind the data
pointer. -/
structure ImVector (T : Type) where
  size : Int
  capacity : Int
  data : List T

/-- Method `ImVector::len` (internal.rs:41): `self.size as usize`. -/
def ImVector.len {T : Type} (v : ImVector T) : Nat := i32AsUsize v.size

/-- Method `ImVector::capacity` (internal.rs:42): `self.capacity as usize`. -/
def ImVector.capacityLen {T : Type} (v : ImVector T) : Nat :=
  i32AsUsize v.capacity

/-- Method `ImVector::replace_from_slice` (internal.rs:28): free the old storage,
allocate exactly `data.len()` elements, copy them, and store
`data.len() as i32` in both `size` and `capacity`. -/
def ImVector.replaceFromSlice {T : Type} (_v : ImVector T) (d : List T) :
    ImVector T :=
  { size := asI32 d.length, capacity := asI32 d.length, data := d }

/-- Method `ImVector::get` (internal.rs:44): bounds-checked read. In bounds, the
code reads `*data.add(index)`, modelled by the list lookup (the read is in
the allocation whenever the `size <=` allocation-length invariant holds). -/
def ImVector.get {T : Type} (v : ImVector T) (i : Nat) : Option T :=
  if i < v.len then v.data[i]? else none

/-- Method `ImVector::get_mut` (internal.rs:52): same bounds check and read as
`get` (it hands back a mutable reference to the same element). -/
def ImVector.getMut {T : Type} (v : ImVector T) (i : Nat) : Option T :=
  if i < v.len then v.data[i]? else none

/-- Impl `Index for ImVector` (internal.rs:62): in bounds, the element; out of
bounds the code panics, modelled by `none` (the operator never returns a
value at an out-of-range index). -/
def ImVector.indexOp {T : Type} (v : ImVector T) (i : Nat) : Option T :=
  if i < v.len then v.data[i]? else none

/-! ### Helper lemmas for the C-string scan -/

/-- Scanning a buffer that is a nul-free block followed by a nul and junk
keeps exactly the block plus that first nul. -/
theorem cstrFromPtr_append_nul (c r : List UInt8) (hc : ∀ x ∈ c, x ≠ 0) :
    cstrFromPtr (c ++ 0 :: r) = c ++ [0] := by
  induction c with
  | nil =>
    simp only [List.nil_append, cstrFromPtr, List.findIdx_cons, beq_self_eq_true,
      cond_true, List.take_succ_cons, List.take_zero]
  | cons a as ih =>
    have ha : (a == 0) = false := by
      simp only [beq_eq_false_iff_ne]
      exact hc a (by simp)
    have ih2 := ih fun x hx => hc x (by simp [hx])
    simp only [cstrFromPtr] at ih2 ⊢
    simp only [List.cons_append, List.findIdx_cons, ha, cond_false,
      List.take_succ_cons, ih2]

/-- Appending the terminator to any byte string splits it at the first nul. -/
theorem takeWhile_ne_zero_split (t : List UInt8) :
    ∃ w, t ++ [0] = t.takeWhile (fun x => x != 0) ++ 0 :: w := by
  induction t with
  | nil => exact ⟨[], by simp⟩
  | cons a as ih =>
    by_cases ha : a = 0
    · subst ha
      exact ⟨as ++ [0], by simp [List.takeWhile_cons]⟩
    · obtain ⟨w, hw⟩ := ih
      refine ⟨w, ?_⟩
      simp only [List.takeWhile_cons, bne_iff_ne, ne_eq, ha, not_false_eq_true,
        if_true, List.cons_append, hw]

/-- Every byte kept by the nul-free take is nonzero. -/
theorem takeWhile_ne_zero_clean (t : List UInt8) :
    ∀ x ∈ t.takeWhile (fun x => x != 0), x ≠ 0 := by
  intro x hx
  simpa using List.mem_takeWhile_imp hx

/-- Refreshing after appending bytes `t` and a terminator to a nul-free block
keeps the block, the nul-free head of `t`, and one terminator. -/
theorem refreshLen_clean_append (c t : List UInt8) (hc : ∀ x ∈ c, x ≠ 0) :
    ImString.refreshLen ((c ++ t) ++ [0]) =
      (c ++ t.takeWhile (fun x => x != 0)) ++ [0] := by
  obtain ⟨w, hw⟩ := takeWhile_ne_zero_split t
  have hall : ∀ x ∈ c ++ t.takeWhile (fun x => x != 0), x ≠ 0 := by
    intro x hx
    rcases List.mem_append.mp hx with h | h
    · exact hc x h
    · exact takeWhile_ne_zero_clean t x h
  have hsplit : (c ++ t) ++ [0] =
      (c ++ t.takeWhile (fun x => x != 0)) ++ 0 :: w := by
    rw [List.append_assoc, hw, ← List.append_assoc]
  unfold ImString.refreshLen
  rw [hsplit, cstrFromPtr_append_nul _ _ hall]

/-- Appending to a well-formed buffer truncates the appended bytes at their
first nul. -/
theorem pushStr_eq (c t : List UInt8) (hc : ∀ x ∈ c, x ≠ 0) :
    ImString.pushStr (c ++ [0]) t =
      (c ++ t.takeWhile (fun x => x != 0)) ++ [0] := by
  unfold ImString.pushStr
  rw [List.dropLast_concat]
  exact refreshLen_clean_append c t hc

/-- Construction keeps the nul-free head of the input plus one terminator. -/
theorem new_eq (s : List UInt8) :
    ImString.new s = s.takeWhile (fun x => x != 0) ++ [0] := by
  have h0 : ImString.new s = ImString.refreshLen (([] ++ s) ++ [0]) := by
    simp [ImString.new, ImString.fromUtf8Unchecked]
  rw [h0, refreshLen_clean_append [] s (by simp)]
  simp

/-- Reading back a well-formed buffer strips exactly the terminator. -/
theorem toStr_clean_concat (c : List UInt8) (hc : ∀ x ∈ c, x ≠ 0) :
    ImString.toStr (c ++ [0]) = c := by
  unfold ImString.toStr ImString.derefBytes
  rw [cstrFromPtr_append_nul c [] hc]
  unfold ImStr.toStr
  rw [List.length_append]
  simp [List.take_left]

/-- Emptiness of a well-formed buffer is emptiness of its content block. -/
theorem isEmpty_clean_concat (c : List UInt8) (hc : ∀ x ∈ c, x ≠ 0) :
    (ImString.isEmpty (c ++ [0]) = true ↔ c = []) := by
  unfold ImString.isEmpty ImString.derefBytes ImStr.isEmpty
  rw [cstrFromPtr_append_nul c [] hc]
  simp [List.length_append, List.length_eq_zero]

/-- Characterization of the representation invariant as a nul-free block
followed by one terminator. -/
theorem nulTerminated_iff (b : List UInt8) :
    nulTerminated b ↔ ∃ c, b = c ++ [0] ∧ ∀ x ∈ c, x ≠ 0 := by
  constructor
  · rintro ⟨hlast, hclean⟩
    have hne : b ≠ [] := by rintro rfl; simp at hlast
    refine ⟨b.dropLast, ?_, hclean⟩
    have hsplit := List.dropLast_append_getLast hne
    have hl : b.getLast hne = 0 := by
      rw [List.getLast?_eq_getLast b hne] at hlast
      simpa using hlast
    conv_lhs => rw [← hsplit]
    rw [hl]
  · rintro ⟨c, rfl, hc⟩
    refine ⟨List.getLast?_concat c, ?_⟩
    rw [List.dropLast_concat]
    exact hc

/-- Appending a byte string preserves the representation invariant. -/
theorem pushStr_preserves (b : ImString) (t : List UInt8)
    (hb : nulTerminated b) : nulTerminated (ImString.pushStr b t) := by
  obtain ⟨c, rfl, hc⟩ := (nulTerminated_iff b).mp hb
  rw [pushStr_eq c t hc]
  refine (nulTerminated_iff _).mpr ⟨_, rfl, ?_⟩
  intro x hx
  rcases List.mem_append.mp hx with h | h
  · exact hc x h
  · exact takeWhile_ne_zero_clean t x h

/-! ### Helper lemmas for the integer casts -/

/-- Below `2^31` the `usize -> i32` cast is the identity. -/
theorem asI32_of_lt (n : Nat) (h : n < 2 ^ 31) : asI32 n = n := by
  unfold asI32
  have h1 : (n : Int) % 2 ^ 32 = n := Int.emod_eq_of_lt (by omega) (by omega)
  rw [h1, if_pos (by omega)]

/-- On nonnegative values below `2^64` the `i32 -> usize` cast is `toNat`. -/
theorem i32AsUsize_of_nonneg (i : Int) (h0 : 0 ≤ i) (h1 : i < 2 ^ 64) :
    i32AsUsize i = i.toNat := by
  unfold i32AsUsize
  rw [Int.emod_eq_of_lt h0 h1]

/-! ### The claims -/

/-- C1: for every byte string `s` with no interior nul, `ImString::new(s)`
read back through the borrowed view's `to_str` yields exactly `s` (the
trailing nul terminator is excluded from the returned view). -/
theorem C1_roundtrip (s : List UInt8) (hs : (0 : UInt8) ∉ s) :
    ImString.toStr (ImString.new s) = s := by
  have hc : ∀ x ∈ s, x ≠ 0 := fun x hx h0 => hs (h0 ▸ hx)
  rw [new_eq s, List.takeWhile_eq_self_iff.mpr (by
    intro x hx
    simpa using hc x hx)]
  exact toStr_clean_concat s hc

/-- Witness for C1 at `s = "test"`. -/
theorem C1_roundtrip_witness :
    ImString.toStr (ImString.new [116, 101, 115, 116]) = [116, 101, 115, 116] :=
  C1_roundtrip [116, 101, 115, 116] (by decide)

/-- C2: `ImString::new(s)` always succeeds and stores exactly the part of `s`
before its first nul followed by one terminator; `to_str` returns that head
and `is_empty` holds iff it is empty. Concrete cases: `"test\0ohno"` stores
`"test\0"`, displays `"test"` and is not empty; `"\0ohno"` displays `""` and
is empty. -/
theorem C2_truncation (s : List UInt8) :
    ImString.new s = s.takeWhile (fun x => x != 0) ++ [0] ∧
    ImString.toStr (ImString.new s) = s.takeWhile (fun x => x != 0) ∧
    (ImString.isEmpty (ImString.new s) = true ↔
      s.takeWhile (fun x => x != 0) = []) ∧
    ImString.new [116, 101, 115, 116, 0, 111, 104, 110, 111] =
      [116, 101, 115, 116, 0] ∧
    ImString.toStr (ImString.new [116, 101, 115, 116, 0, 111, 104, 110, 111]) =
      [116, 101, 115, 116] ∧
    ImString.isEmpty (ImString.new [116, 101, 115, 116, 0, 111, 104, 110, 111]) =
      false ∧
    ImString.toStr (ImString.new [0, 111, 104, 110, 111]) = [] ∧
    ImString.isEmpty (ImString.new [0, 111, 104, 110, 111]) = true := by
  refine ⟨new_eq s, ?_, ?_, by decide, by decide, by decide, by decide, by decide⟩
  · rw [new_eq s]
    exact toStr_clean_concat _ (takeWhile_ne_zero_clean s)
  · rw [new_eq s]
    exact isEmpty_clean_concat _ (takeWhile_ne_zero_clean s)

/-- C3: from any buffer satisfying the representation invariant, any finite
sequence of `push`/`push_str` calls (with arbitrary arguments, nul bytes
included) leaves a buffer whose final byte is the single nul: no nul occurs
earlier. -/
theorem C3_terminator_invariant (b : ImString) (hb : nulTerminated b)
    (ops : List StrOp) : nulTerminated (applyOps b ops) := by
  induction ops generalizing b with
  | nil => exact hb
  | cons op rest ih =>
    simp only [applyOps, List.foldl_cons] at ih ⊢
    have hstep : nulTerminated (applyOp b op) := by
      cases op with
      | pushCh c => exact pushStr_preserves b _ hb
      | pushBytes t => exact pushStr_preserves b t hb
    exact ih _ hstep

/-- Witness for C3: start from the empty string's buffer `"\0"` and run a
`push('a')` followed by a `push_str` whose argument contains a nul. -/
theorem C3_terminator_invariant_witness :
    nulTerminated
      (applyOps [0] [StrOp.pushCh 'a', StrOp.pushBytes [98, 0, 99]]) :=
  C3_terminator_invariant [0] (by decide)
    [StrOp.pushCh 'a', StrOp.pushBytes [98, 0, 99]]

/-- C4: on the buffer of `ImString::new("testing")`, writing byte `'z'` at
content offset 2 and a nul at offset 3 through the raw pointer and then
calling `refresh_len` leaves exactly the bytes `"tez\0"`; in general
`refresh_len` sets the logical length to the index of the first nul byte
plus one. -/
theorem C4_refresh_resync :
    ImString.refreshLen
        (List.set
          (List.set (ImString.new [116, 101, 115, 116, 105, 110, 103]) 2 122)
          3 0) =
      [116, 101, 122, 0] ∧
    ∀ b : List UInt8, (0 : UInt8) ∈ b →
      (ImString.refreshLen b).length =
        b.findIdx (fun x => x == 0) + 1 := by
  refine ⟨by decide, ?_⟩
  intro b hb
  have hlt : b.findIdx (fun x => x == 0) < b.length :=
    List.findIdx_lt_length_of_exists ⟨0, hb, by simp⟩
  unfold ImString.refreshLen cstrFromPtr
  rw [List.length_take]
  omega

/-- Witness for C4's general clause at the buffer `[5, 0, 7]`. -/
theorem C4_refresh_resync_witness :
    (ImString.refreshLen [5, 0, 7]).length =
      List.findIdx (fun x => x == 0) [5, 0, 7] + 1 :=
  C4_refresh_resync.2 [5, 0, 7] (by decide)

/-- C5: `refresh_buffer` empties the buffer exactly when its length exceeds
`max_len` and leaves it unchanged otherwise; since the staging operations
refresh before pushing, a staging call on an over-long buffer starts from an
empty buffer before appending its text. -/
theorem C5_scratch_bounding (ub : UiBuffer) (t t0 t1 : List UInt8) :
    (ub.buffer.length > ub.maxLen →
      ub.refreshBuffer.buffer = [] ∧
      (ub.scratchTxt t).2.buffer = t ++ [0] ∧
      (ub.scratchTxtTwo t0 t1).2.buffer = ((t0 ++ [0]) ++ t1) ++ [0]) ∧
    (¬ ub.buffer.length > ub.maxLen → ub.refreshBuffer = ub) := by
  constructor
  · intro h
    refine ⟨?_, ?_, ?_⟩ <;>
      simp [UiBuffer.refreshBuffer, UiBuffer.scratchTxt, UiBuffer.scratchTxtTwo,
        UiBuffer.push, UiBuffer.offset, h]
  · intro h
    simp [UiBuffer.refreshBuffer, h]

/-- Witness for C5: an over-long buffer (length 2 > max 1) is cleared by
refresh and by both staging calls; a short buffer (length 1 <= max 5) is
left unchanged. -/
theorem C5_scratch_bounding_witness :
    ((UiBuffer.mk [1, 2] 1).refreshBuffer.buffer = [] ∧
      ((UiBuffer.mk [1, 2] 1).scratchTxt [7]).2.buffer = [7] ++ [0] ∧
      ((UiBuffer.mk [1, 2] 1).scratchTxtTwo [8] [9]).2.buffer =
        (([8] ++ [0]) ++ [9]) ++ [0]) ∧
    (UiBuffer.mk [3] 5).refreshBuffer = UiBuffer.mk [3] 5 :=
  ⟨(C5_scratch_bounding (UiBuffer.mk [1, 2] 1) [7] [8] [9]).1 (by decide),
    (C5_scratch_bounding (UiBuffer.mk [3] 5) [] [] []).2 (by decide)⟩

/-- C6 counterexample: `replace_from_slice` stores `data.len() as i32` in the
`c_int` size field, so a slice of `2^31` (zero-sized) elements wraps to a
negative size and `len()` (`size as usize`) does not equal `data.len()`. -/
theorem C6_counterexample :
    ¬ (((ImVector.mk 0 0 [] : ImVector Unit).replaceFromSlice
          (List.replicate (2 ^ 31) ())).len =
        (List.replicate (2 ^ 31) ()).length) := by
  simp only [ImVector.replaceFromSlice, ImVector.len, List.length_replicate]
  norm_num [asI32, i32AsUsize]
  decide

/-- C6 (amended): for every slice whose length fits in the 32-bit size field
(`data.len() < 2^31`), after `replace_from_slice(data)` the view's `len()`
and `capacity()` both equal `data.len()` and every index below `data.len()`
reads back the corresponding slice element. -/
theorem C6_replace_exact {T : Type} (v : ImVector T) (d : List T)
    (hd : d.length < 2 ^ 31) :
    (v.replaceFromSlice d).len = d.length ∧
    (v.replaceFromSlice d).capacityLen = d.length ∧
    ∀ i, i < d.length → (v.replaceFromSlice d).get i = d[i]? := by
  have hcast : i32AsUsize (asI32 d.length) = d.length := by
    rw [asI32_of_lt _ hd, i32AsUsize_of_nonneg _ (by omega) (by omega)]
    simp
  have hlen : (v.replaceFromSlice d).len = d.length := by
    simp only [ImVector.replaceFromSlice, ImVector.len]
    exact hcast
  refine ⟨hlen, ?_, ?_⟩
  · simp only [ImVector.replaceFromSlice, ImVector.capacityLen]
    exact hcast
  · intro i hi
    simp only [ImVector.get, ImVector.replaceFromSlice] at hlen ⊢
    rw [if_pos (by rw [hlen]; exact hi)]

/-- Witness for C6 (amended) on a three-element slice. -/
theorem C6_replace_exact_witness :
    ((ImVector.mk 0 0 [] : ImVector Nat).replaceFromSlice [5, 6, 7]).len = 3 ∧
    ((ImVector.mk 0 0 [] : ImVector Nat).replaceFromSlice
        [5, 6, 7]).capacityLen = 3 ∧
    ((ImVector.mk 0 0 [] : ImVector Nat).replaceFromSlice [5, 6, 7]).get 1 =
      some 6 := by
  have h := C6_replace_exact (ImVector.mk 0 0 [] : ImVector Nat) [5, 6, 7]
    (by norm_num)
  exact ⟨h.1, h.2.1, (h.2.2 1 (by norm_num)).trans (by decide)⟩

/-- C7: on a view whose data block matches its logical length, `get`,
`get_mut` and the index operator return nothing (absence for the first two,
the panic for the third) at every index at or beyond the length, and all
three return exactly the stored element below the length. -/
theorem C7_bounds {T : Type} (v : ImVector T) (hwf : v.data.length = v.len)
    (i : Nat) :
    (v.len ≤ i → v.get i = none ∧ v.getMut i = none ∧ v.indexOp i = none) ∧
    (i < v.len →
      ∃ x, v.data[i]? = some x ∧ v.get i = some x ∧ v.getMut i = some x ∧
        v.indexOp i = some x) := by
  constructor
  · intro h
    have hni : ¬ i < v.len := by omega
    simp [ImVector.get, ImVector.getMut, ImVector.indexOp, hni]
  · intro h
    have hi : i < v.data.length := by omega
    refine ⟨v.data[i], ?_, ?_, ?_, ?_⟩ <;>
      simp [ImVector.get, ImVector.getMut, ImVector.indexOp, h,
        List.getElem?_eq_getElem hi]

/-- Witness for C7 on the view `{size := 2, capacity := 2, data := [10, 20]}`. -/
theorem C7_bounds_witness :
    (ImVector.mk 2 2 [10, 20] : ImVector Nat).get 5 = none ∧
    (ImVector.mk 2 2 [10, 20] : ImVector Nat).indexOp 5 = none ∧
    (ImVector.mk 2 2 [10, 20] : ImVector Nat).get 1 = some 20 := by
  have hwf : (ImVector.mk 2 2 [10, 20] : ImVector Nat).data.length =
      (ImVector.mk 2 2 [10, 20] : ImVector Nat).len := by decide
  have h5 := (C7_bounds (ImVector.mk 2 2 [10, 20] : ImVector Nat) hwf 5).1
    (by decide)
  have h1 := (C7_bounds (ImVector.mk 2 2 [10, 20] : ImVector Nat) hwf 1).2
    (by decide)
  obtain ⟨x, hx1, hx2, -, -⟩ := h1
  refine ⟨h5.1, h5.2.2, ?_⟩
  have hx : 20 = x := by simpa using hx1
  rw [hx2, ← hx]

/-- C8: `UiBuffer::push(t)` returns the pre-call buffer length (the starting
offset of the pushed region), and the new buffer is the old contents followed
by `t` and one nul terminator, so the length grows by `t.len() + 1`; the
retained-length bound is untouched. -/
theorem C8_push_contract (ub : UiBuffer) (t : List UInt8) :
    (ub.push t).1 = ub.buffer.length ∧
    (ub.push t).2.buffer = ub.buffer ++ (t ++ [0]) ∧
    (ub.push t).2.buffer.length = ub.buffer.length + (t.length + 1) ∧
    (ub.push t).2.maxLen = ub.maxLen := by
  refine ⟨rfl, by simp [UiBuffer.push], ?_, rfl⟩
  simp [UiBuffer.push]

/-- C9: on a buffer satisfying the representation invariant, `push_str` with
an argument containing a nul keeps the old content followed by only the part
of the argument before its first nul, plus one terminator (the rescan in
`push_str` truncates, exactly as construction does), and the invariant is
preserved. -/
theorem C9_pushStr_truncates (s : ImString) (t : List UInt8)
    (hs : nulTerminated s) (_ht : (0 : UInt8) ∈ t) :
    ImString.pushStr s t =
      (s.dropLast ++ t.takeWhile (fun x => x != 0)) ++ [0] ∧
    nulTerminated (ImString.pushStr s t) := by
  obtain ⟨c, rfl, hc⟩ := (nulTerminated_iff s).mp hs
  rw [List.dropLast_concat]
  exact ⟨pushStr_eq c t hc, pushStr_preserves _ t hs⟩

/-- Witness for C9: content `"a"` plus `push_str("b\0c")` gives `"ab\0"`. -/
theorem C9_pushStr_truncates_witness :
    ImString.pushStr [97, 0] [98, 0, 99] = [97, 98, 0] ∧
    nulTerminated (ImString.pushStr [97, 0] [98, 0, 99]) := by
  have h := C9_pushStr_truncates [97, 0] [98, 0, 99] (by decide) (by decide)
  exact ⟨h.1.trans (by decide), h.2⟩

/-- C10: every position the staging helpers hand to the unsafe `offset`
function is strictly below the buffer length at that moment, so `offset`'s
`pos < buffer.len()` precondition always holds in those internal uses; the
absent optional text maps to the null pointer. -/
theorem C10_offsets_in_bounds (ub : UiBuffer) (t t0 t1 : List UInt8) :
    ((ub.scratchTxt t).1 < (ub.scratchTxt t).2.buffer.length) ∧
    ((ub.scratchTxtTwo t0 t1).1.1 < (ub.scratchTxtTwo t0 t1).2.buffer.length) ∧
    ((ub.scratchTxtTwo t0 t1).1.2 < (ub.scratchTxtTwo t0 t1).2.buffer.length) ∧
    ((ub.scratchTxtWithOpt t0 (some t1)).1.1 <
      (ub.scratchTxtWithOpt t0 (some t1)).2.buffer.length) ∧
    (∀ p, (ub.scratchTxtWithOpt t0 (some t1)).1.2 = some p →
      p < (ub.scratchTxtWithOpt t0 (some t1)).2.buffer.length) ∧
    ((ub.scratchTxtWithOpt t0 none).1.1 <
      (ub.scratchTxtWithOpt t0 none).2.buffer.length) ∧
    ((ub.scratchTxtWithOpt t0 none).1.2 = none) := by
  simp only [UiBuffer.scratchTxt, UiBuffer.scratchTxtTwo,
    UiBuffer.scratchTxtWithOpt, UiBuffer.push, UiBuffer.offset,
    List.length_append, List.length_cons, List.length_nil]
  refine ⟨by omega, by omega, by omega, by omega, ?_, by omega, trivial⟩
  intro p hp
  have hp2 := Option.some.inj hp
  omega

/-- Witness for C10: concrete staging calls on an empty buffer. -/
theorem C10_offsets_in_bounds_witness :
    (((UiBuffer.mk [] 10).scratchTxt [1]).1 <
      ((UiBuffer.mk [] 10).scratchTxt [1]).2.buffer.length) ∧
    3 < ((UiBuffer.mk [] 10).scratchTxtWithOpt [1, 2]
          (some [3])).2.buffer.length :=
  ⟨(C10_offsets_in_bounds (UiBuffer.mk [] 10) [1] [1, 2] [3]).1,
    (C10_offsets_in_bounds (UiBuffer.mk [] 10) [1] [1, 2] [3]).2.2.2.2.1 3
      (by decide)⟩
